import Mathlib

/-!
Verification of the document-to-feature extraction pipeline of the
jeonse-fraud risk service (source: `risk_utils.py`).

The Python source works on OCR-recognized text; we embed every pure text
transformation over `List Char` / `String`.  Machine floats of the source
(areas, scores, ratios) are modelled as exact rationals `ℚ`, since every
property of interest is order-theoretic or exact-arithmetic.  Functions
that can raise an uncaught Python exception are embedded with `Except`.
Korean identifiers of the source are romanized (Lean identifiers must be
letters): each definition's doc comment names the source symbol.
-/

/-- Python `str.split()` tokenizer on a character list: splits on runs of
whitespace, dropping empty chunks.  Structural recursion so that concrete
inputs evaluate inside `decide`/`rfl`. -/
def splitWs : List Char → List (List Char)
  | [] => []
  | [c] => if c.isWhitespace then [] else [[c]]
  | c :: d :: cs =>
    if c.isWhitespace then splitWs (d :: cs)
    else if d.isWhitespace then [c] :: splitWs (d :: cs)
    else
      match splitWs (d :: cs) with
      | [] => [[c]]
      | t :: ts => (c :: t) :: ts

/-- Python `str.strip()`: drop leading and trailing whitespace. -/
def stripL (l : List Char) : List Char :=
  ((l.dropWhile Char.isWhitespace).reverse.dropWhile Char.isWhitespace).reverse

/-- `''.join` on a list of token character-lists. -/
def joinL : List (List Char) → List Char
  | [] => []
  | l :: ls => l ++ joinL ls

/-- Python `str.split()` at the `String` level (used by `get_lawd_cd` on the
address, and by the parser on the marker line). -/
def pySplit (s : String) : List String :=
  (splitWs s.toList).map String.mk

/-- Boolean "is a prefix of" on character lists (needle first). -/
def pfxL : List Char → List Char → Bool
  | [], _ => true
  | _ :: _, [] => false
  | a :: as, b :: bs => a == b && pfxL as bs

/-- Python `needle in haystack` substring test on character lists. -/
def subL : List Char → List Char → Bool
  | p, [] => pfxL p []
  | p, c :: cs => pfxL p (c :: cs) || subL p cs

/-- Substring test at the `String` level. -/
def subS (needle hay : String) : Bool := subL needle.toList hay.toList

/-- `clean_korean_text`: `''.join(re.findall(r'[가-힣]', text))`, i.e. keep
exactly the Hangul-syllable characters U+AC00 .. U+D7A3. -/
def cleanKorean (l : List Char) : List Char :=
  l.filter (fun c => 0xAC00 ≤ c.toNat && c.toNat ≤ 0xD7A3)

/-- Skip a (possibly empty) whitespace run: regex `\s*`.  Like Python's
`\s`, `Char.isWhitespace` accepts the newline, so the run may cross line
ends. -/
def skipWs (l : List Char) : List Char := l.dropWhile Char.isWhitespace

/-- Consume one expected literal character. -/
def afterLit (c : Char) : List Char → Option (List Char)
  | x :: xs => if x == c then some xs else none
  | [] => none

/-- Try to match `\[\s*집\s*합\s*건\s*물\s*\]\s*([^\n]+)` anchored at the
start of `l`; on success return the capture group.  The greedy `\s*` after
`]` crosses newlines exactly as Python's does; the capture is the maximal
run of non-newline characters that follows, and must be non-empty.  (When
that run is empty we are at the end of the input, where Python's
backtracking can only produce an all-whitespace capture whose `strip()` is
empty — the overall parse outcome is identical, see
`extract_address_and_building_from_pdf`.) -/
def markerAt (l : List Char) : Option (List Char) := do
  let r ← afterLit '[' l
  let r ← afterLit '집' (skipWs r)
  let r ← afterLit '합' (skipWs r)
  let r ← afterLit '건' (skipWs r)
  let r ← afterLit '물' (skipWs r)
  let r ← afterLit ']' (skipWs r)
  let cap := (skipWs r).takeWhile (fun c => c != '\n')
  if cap.isEmpty then none else some cap

/-- `re.search` for the marker pattern: try every start position, left to
right, returning the first capture. -/
def findMarker : List Char → Option (List Char)
  | [] => none
  | c :: cs =>
    match markerAt (c :: cs) with
    | some cap => some cap
    | none => findMarker cs

/-- Models `re.match(r"\d{1,4}-?\d*", word)`: anchored at the start of the
word and nowhere else, it succeeds exactly when the first character is a
digit (take one repetition of `\d{1,4}` and both optional parts empty). -/
def lotPat (w : List Char) : Bool :=
  match w with
  | c :: _ => c.isDigit
  | [] => false

/-- Models `re.search(r"(제|\d+호|층|동|\d+)", w)` from the building-name
cleanup: since `\d+` alone is one alternative and every alternative begins
with `제`, `층`, `동` or a digit, the search succeeds exactly when the word
contains one of those three characters or any digit. -/
def sfxPat (w : List Char) : Bool :=
  w.any (fun c => c == '제' || c == '층' || c == '동' || c.isDigit)

/-- The token scan of `extract_address_and_building_from_pdf`:
`dong_end_idx` starts at `-1`; each word containing `동` updates it to the
word's index; the first word matching the lot-number pattern overwrites it
with the previous index and stops the scan. -/
def scanIdx : List (List Char) → Nat → Int → Int
  | [], _, acc => acc
  | w :: ws, i, acc =>
    let acc' := if w.contains '동' then (i : Int) else acc
    if lotPat w then (i : Int) - 1 else scanIdx ws (i + 1) acc'

/-- `''.join(words[3 : dong_end_idx + 1])`. -/
def dongPart (words : List (List Char)) (n : Nat) : List Char :=
  joinL ((words.drop 3).take (n + 1 - 3))

/-- `words[dong_end_idx + 2:]` filtered by the suffix pattern, joined, and
restricted to Hangul syllables (`clean_korean_text`). -/
def buildingPart (words : List (List Char)) (n : Nat) : List Char :=
  cleanKorean (joinL ((words.drop (n + 2)).filter (fun w => !sfxPat w)))

/-- The body of `extract_address_and_building_from_pdf` after the marker
line has been found and stripped: tokenize, resolve the boundary index,
fail when it is below 3, otherwise build
`f"{words[0]} {words[1]+words[2]} {''.join(words[3:idx+1])}".strip()` and
the cleaned building name.  The final wildcard branch is unreachable: a
boundary of at least 3 forces at least four tokens (`scanIdx_le`). -/
def parseMarkerLineL (lineL : List Char) : Option (List Char × List Char) :=
  let words := splitWs lineL
  let idx := scanIdx words 0 (-1)
  if idx < 3 then none
  else
    match words with
    | w0 :: w1 :: w2 :: _ =>
      some (stripL (w0 ++ ' ' :: ((w1 ++ w2) ++ ' ' :: dongPart words idx.toNat)),
            buildingPart words idx.toNat)
    | _ => none

/-- `extract_address_and_building_from_pdf`, embedded from the recognized
document text onward (the PDF rendering and OCR stages are external
capabilities; the function's own logic starts at the regex search).
Returns the `(address, building_name)` pair; `(none, none)` models the
`return None, None` paths. -/
def extract_address_and_building_from_pdf (text : String) :
    Option String × Option String :=
  match findMarker text.toList with
  | none => (none, none)
  | some cap =>
    match parseMarkerLineL (stripL cap) with
    | none => (none, none)
    | some (a, b) => (some (String.mk a), some (String.mk b))

/-- One row of the 법정동코드 reference table (`pd.read_csv(csv_path,
dtype=str)`): `sidoNm` = 시도명, `sigunguNm` = 시군구명, `eupmyeondongNm` =
읍면동명, `lawdCode` = 법정동코드. -/
structure LawdRow where
  sidoNm : String
  sigunguNm : String
  eupmyeondongNm : String
  lawdCode : String
deriving DecidableEq

/-- `get_lawd_cd`: split the address on whitespace; fewer than 3 parts is a
failure; otherwise filter the table by exact equality on the
(시도명, 시군구명, 읍면동명) triple (the pandas boolean-mask filter keeps
row order), take the first matching row (`match.iloc[0]`) and return the
first 5 characters of its code (`[:5]`, clamping like the Python slice). -/
def get_lawd_cd (address : String) (table : List LawdRow) : Option String :=
  let parts := pySplit address
  if parts.length < 3 then none
  else
    match parts with
    | sido :: sigungu :: emd :: _ =>
      match table.filter (fun r =>
          r.sidoNm == sido && r.sigunguNm == sigungu && r.eupmyeondongNm == emd) with
      | [] => none
      | r :: _ => some (r.lawdCode.take 5)
    | _ => none

/-- One accumulated trade record (the dict built in the monthly loop of
`get_latest_officetel_trade`): `complexNm` = 단지명 (`offiNm`),
`exclusiveArea` = 전용면적 (`float(excluUseAr)`, modelled exactly in `ℚ`),
`contractDate` = 계약일 (`f"{dealYear}-{dealMonth}-{dealDay}"`, kept as the
string the source builds), `dealAmount` = 거래금액(만원). -/
structure TradeRecord where
  complexNm : String
  exclusiveArea : ℚ
  contractDate : String
  dealAmount : String
deriving DecidableEq

/-- One `item` element of the registry XML answer.  `none` in a field
models `soup.find(...)` returning no node (so that `.text` would raise
`AttributeError` inside the `try`). -/
structure RawItem where
  offiNm : Option String
  excluUseAr : Option String
  dealYear : Option String
  dealMonth : Option String
  dealDay : Option String
  dealAmount : Option String

/-- Digit run to a natural number. -/
def digitsToNat (l : List Char) : Nat :=
  l.foldl (fun n c => 10 * n + (c.toNat - '0'.toNat)) 0

/-- Parse a non-empty all-digit string. -/
def parseNatStr (l : List Char) : Option Nat :=
  if l.isEmpty then none
  else if l.all Char.isDigit then some (digitsToNat l) else none

/-- Split on a separator character, keeping empty chunks (the list returned
is always non-empty, like Python's `str.split(sep)`). -/
def splitOnC (sep : Char) : List Char → List (List Char)
  | [] => [[]]
  | c :: cs =>
    if c == sep then [] :: splitOnC sep cs
    else
      match splitOnC sep cs with
      | t :: ts => (c :: t) :: ts
      | [] => [[c]]

/-- Models Python `float()` on the plain decimal strings the registry uses
for `excluUseAr` (digits with an optional fractional part), exactly in `ℚ`;
anything else fails, raising `ValueError` inside the source's `try`. -/
def parseFloatStr (s : String) : Option ℚ :=
  match splitOnC '.' s.toList with
  | [w] => (parseNatStr w).map (fun n => (n : ℚ))
  | [w, f] => do
    let wn ← parseNatStr w
    let fn ← parseNatStr f
    pure ((wn : ℚ) + (fn : ℚ) / (10 : ℚ) ^ f.length)
  | _ => none

/-- The `try` body of the monthly accumulation loop: build one record from
an `item`; any missing field (`.text` on `None`) or unparseable area
(`float(...)`) raises, which the bare `except: continue` turns into `none`.
Fields are evaluated in the source's dict-literal order. -/
def parse_trade_item (it : RawItem) : Option TradeRecord := do
  let nm ← it.offiNm
  let arS ← it.excluUseAr
  let ar ← parseFloatStr arS
  let y ← it.dealYear
  let m ← it.dealMonth
  let d ← it.dealDay
  let amt ← it.dealAmount
  pure ⟨nm, ar, y ++ "-" ++ m ++ "-" ++ d, amt⟩

/-- The accumulation across the year: every parseable record of every
month is kept, each unparseable one is skipped (`except: continue`). -/
def accumulate_records (items : List RawItem) : List TradeRecord :=
  items.filterMap parse_trade_item

/-- Days per month, with the Gregorian leap rule (what
`pd.to_datetime` accepts as a valid calendar day). -/
def daysInMonth (y m : Nat) : Nat :=
  if m = 2 then
    (if (y % 4 = 0 ∧ y % 100 ≠ 0) ∨ y % 400 = 0 then 29 else 28)
  else if m = 4 ∨ m = 6 ∨ m = 9 ∨ m = 11 then 30 else 31

/-- Models `pd.to_datetime(s, errors="coerce")` on the `"year-month-day"`
strings the source builds: three dash-separated numeric fields making a
valid calendar date, otherwise `NaT` (= `none`, dropped by `dropna`). -/
def parseDate (s : String) : Option (Nat × Nat × Nat) :=
  match splitOnC '-' s.toList with
  | [ys, ms, ds] => do
    let y ← parseNatStr ys
    let m ← parseNatStr ms
    let d ← parseNatStr ds
    if 1 ≤ m ∧ m ≤ 12 ∧ 1 ≤ d ∧ d ≤ daysInMonth y m then pure (y, m, d) else none
  | _ => none

/-- The datetime value a record sorts by (only used on records whose date
parsed; the default is never reached there). -/
def dateVal (r : TradeRecord) : Nat × Nat × Nat :=
  (parseDate r.contractDate).getD (0, 0, 0)

/-- Chronological order on parsed dates (how pandas compares the
`datetime64` column): lexicographic on (year, month, day). -/
def dateLe (a b : Nat × Nat × Nat) : Prop :=
  a.1 < b.1 ∨ (a.1 = b.1 ∧ (a.2.1 < b.2.1 ∨ (a.2.1 = b.2.1 ∧ a.2.2 ≤ b.2.2)))

/-- Strict chronological order, as a boolean. -/
def dateLtB (a b : Nat × Nat × Nat) : Bool :=
  a.1 < b.1 || (a.1 == b.1 && (a.2.1 < b.2.1 || (a.2.1 == b.2.1 && a.2.2 < b.2.2)))

/-- `면적차이`: absolute difference between a record's area and the queried
area. -/
def areaDiff (area : ℚ) (r : TradeRecord) : ℚ := |r.exclusiveArea - area|

/-- `r` strictly precedes `a` under the sort key
`(면적차이 ascending, 계약일 descending)`. -/
def betterB (area : ℚ) (a r : TradeRecord) : Bool :=
  decide (areaDiff area r < areaDiff area a) ||
    (decide (areaDiff area r = areaDiff area a) && dateLtB (dateVal a) (dateVal r))

/-- `sort_values(["면적차이", "계약일"], ascending=[True, False]).head(1)`
on a non-empty frame: the row minimal for the lexicographic key.  The sort
pandas performs on multiple columns is stable, so among fully tied rows the
first accumulated one is kept; the fold replaces its accumulator only on a
strict improvement, matching that. -/
def selectLatest (area : ℚ) (a : TradeRecord) (l : List TradeRecord) : TradeRecord :=
  l.foldl (fun acc r => if betterB area acc r then r else acc) a

/-- `get_latest_officetel_trade` from the accumulated records onward (the
twelve HTTP queries are the external registry capability; `result` is the
list the loop accumulated).  When no record at all was accumulated,
`pd.DataFrame([])` has no columns and `df["단지명"]` raises an uncaught
`KeyError` — modelled as `Except.error`.  Otherwise: filter rows whose
단지명 contains the building name (`str.contains`; building names reaching
this point are Hangul-only, so the pattern has no regex metacharacter and
the test is plain substring), drop rows whose 계약일 does not parse
(`to_datetime(errors="coerce")` + `dropna`), return `none` on an empty
filtered frame, else the best row. -/
def get_latest_officetel_trade (result : List TradeRecord)
    (building_name : String) (area : ℚ) : Except String (Option TradeRecord) :=
  if result.isEmpty then Except.error "KeyError: 단지명"
  else
    let dated := (result.filter (fun r => subS building_name r.complexNm)).filter
      (fun r => (parseDate r.contractDate).isSome)
    match dated with
    | [] => Except.ok none
    | r0 :: rest => Except.ok (some (selectLatest area r0 rest))

/-- The label literal of `normalize_mortgage`'s regex, 근저당권설정금. -/
def lienLabel : List Char := "근저당권설정금".toList

/-- Consume an expected literal character sequence, returning the rest. -/
def dropLit : List Char → List Char → Option (List Char)
  | [], l => some l
  | _ :: _, [] => none
  | p :: ps, c :: cs => if c == p then dropLit ps cs else none

/-- The capture group `(\d+,\d+|\d+)` with Python's ordered, greedy
alternation: the first alternative succeeds exactly when the maximal digit
run is followed by a comma and at least one more digit (backtracking inside
`\d+` cannot help, a comma is not a digit), and then takes the maximal
second run; otherwise the second alternative takes the maximal digit run
alone.  Returns `(capture, rest-of-input)`; fails when no digit starts. -/
def matchAmount (l : List Char) : Option (List Char × List Char) :=
  let d1 := l.takeWhile Char.isDigit
  if d1.isEmpty then none
  else
    let r1 := l.dropWhile Char.isDigit
    match r1 with
    | ',' :: r2 =>
      let d2 := r2.takeWhile Char.isDigit
      if d2.isEmpty then some (d1, r1)
      else some (d1 ++ ',' :: d2, r2.dropWhile Char.isDigit)
    | _ => some (d1, r1)

/-- One anchored attempt of `근저당권설정금(\d+,\d+|\d+)`. -/
def mortgageAt (l : List Char) : Option (List Char × List Char) := do
  matchAmount (← dropLit lienLabel l)

/-- `re.findall` scanning: at each position try the anchored pattern;
on a match, emit the capture and resume after the match, else advance one
character.  The fuel argument (initialized to the input length, which every
step strictly consumes from) keeps the recursion structural so concrete
inputs reduce inside `decide`. -/
def findallMortgageAux : Nat → List Char → List (List Char)
  | 0, _ => []
  | _ + 1, [] => []
  | fuel + 1, c :: cs =>
    match mortgageAt (c :: cs) with
    | some (cap, rest) => cap :: findallMortgageAux fuel rest
    | none => findallMortgageAux fuel cs

/-- `re.findall(r'근저당권설정금(\d+,\d+|\d+)', text)`. -/
def findallMortgage (l : List Char) : List (List Char) :=
  findallMortgageAux l.length l

/-- `int(m.replace(',', ''))` on a captured amount. -/
def parseIntCommas (cap : List Char) : Nat :=
  digitsToNat (cap.filter (fun c => c != ','))

/-- `normalize_mortgage`: parse every captured amount, take the maximum,
divide by `1_0000_0000`; `0` when there is no match.  (Python's `int/int`
division produces a float; the quotient is modelled exactly in `ℚ`.) -/
def normalize_mortgage (text : List Char) : ℚ :=
  let values := (findallMortgage text).map parseIntCommas
  match values with
  | [] => 0
  | v :: vs => ((vs.foldl max v : Nat) : ℚ) / 100000000

/-- The 7-field feature record of `parse_ocr_text_to_features`:
`jeonseRatio` = 전세가율, `trust` = 신탁, `mortgageNorm` = 근저당정규화,
`provSeizure` = 가압류, `seizure` = 압류, `ownershipTransfer` = 소유권이전,
`leaseRegOrder` = 임차권등기명령. -/
structure FeatureRecord where
  jeonseRatio : ℚ
  trust : Nat
  mortgageNorm : ℚ
  provSeizure : Nat
  seizure : Nat
  ownershipTransfer : Nat
  leaseRegOrder : Nat
deriving DecidableEq

/-- `int(keyword in text)` on the space-stripped text. -/
def containsKw (t : List Char) (kw : String) : Nat :=
  if subL kw.toList t then 1 else 0

/-- `parse_ocr_text_to_features`: strip every ASCII space
(`text.replace(" ", "")` — newlines stay), then build the fixed-schema
record of keyword indicators, the normalized senior-lien amount, and the
precomputed ratio. -/
def parse_ocr_text_to_features (text : String) (jeonse_ratio : ℚ) :
    FeatureRecord :=
  let t := text.toList.filter (fun c => c != ' ')
  { jeonseRatio := jeonse_ratio
    trust := containsKw t "신탁"
    mortgageNorm := normalize_mortgage t
    provSeizure := containsKw t "가압류"
    seizure := containsKw t "압류"
    ownershipTransfer := containsKw t "소유권이전"
    leaseRegOrder := containsKw t "임차권등기명령" }

/-- `interpret_risk_score`: the elif chain over the score (a model output;
modelled in `ℚ`), returning the (level, message) pair. -/
def interpret_risk_score (score : ℚ) : String × String :=
  if 80 ≤ score then ("매우 높음", "⚠️ 보증금 반환이 어려울 가능성이 매우 높습니다.")
  else if 60 ≤ score then ("높음", "⚠️ 보증금 반환에 위험 요소가 존재합니다.")
  else if 40 ≤ score then ("보통", "⚠️ 일부 위험 요소가 있습니다.")
  else if 20 ≤ score then ("낮음", "✅ 위험 요소는 적은 편입니다.")
  else ("매우 낮음", "✅ 위험 요소가 거의 없습니다.")

/-- Index of the first token matching the lot-number pattern, if any. -/
def firstLotIdx : List (List Char) → Option Nat
  | [] => none
  | w :: ws => if lotPat w then some 0 else (firstLotIdx ws).map (· + 1)

/-- Index of the last token containing `동`, carried through an
accumulator (start it at `-1` for "none so far"). -/
def lastDongAux : List (List Char) → Nat → Int → Int
  | [], _, acc => acc
  | w :: ws, i, acc => lastDongAux ws (i + 1) (if w.contains '동' then (i : Int) else acc)

/-- The boundary as the specification words it: the index of the last
token containing `동`, except that if some token matches the numeric
lot-number pattern, the boundary is the index immediately before the first
such token (scanning stops there). -/
def boundarySpec (words : List (List Char)) : Int :=
  match firstLotIdx words with
  | some j => (j : Int) - 1
  | none => lastDongAux words 0 (-1)

/-- `r` is at least as good a candidate as `s` for the selection of
`get_latest_officetel_trade`: strictly closer in area, or tied in area and
at least as recent. -/
def goodCand (area : ℚ) (r s : TradeRecord) : Prop :=
  areaDiff area r ≤ areaDiff area s ∧
    (areaDiff area s = areaDiff area r → dateLe (dateVal s) (dateVal r))

/-- A prefix occurs as a substring. -/
theorem subL_of_pfxL (p l : List Char) (h : pfxL p l = true) : subL p l = true := by
  cases l <;> simp [subL, h]

/-- Dropping the first character of the needle preserves occurrence. -/
theorem subL_cons_weaken (c : Char) (p l : List Char)
    (h : subL (c :: p) l = true) : subL p l = true := by
  induction l with
  | nil => simp [subL, pfxL] at h
  | cons x xs ih =>
    simp only [subL, Bool.or_eq_true] at h ⊢
    cases h with
    | inl h =>
      simp only [pfxL, Bool.and_eq_true] at h
      exact Or.inr (subL_of_pfxL p xs h.2)
    | inr h => exact Or.inr (ih h)

/-- `find?` returns the head of the filtered list. -/
theorem find?_eq_head?_filter (p : α → Bool) (l : List α) :
    l.find? p = (l.filter p).head? := by
  induction l with
  | nil => rfl
  | cons a l ih =>
    rw [List.find?_cons, List.filter_cons]
    cases hpa : p a
    · simp only [hpa, if_false]; exact ih
    · simp only [hpa, if_true, List.head?_cons]

/-- C9: in every feature record produced by `parse_ocr_text_to_features`,
the 압류 (seizure) indicator dominates the 가압류 (provisional seizure)
indicator: the seizure keyword is a substring of the provisional-seizure
keyword, so wherever 가압류 occurs, 압류 occurs too. -/
theorem seizure_ge_provisional (text : String) (ratio : ℚ) :
    (parse_ocr_text_to_features text ratio).provSeizure ≤
      (parse_ocr_text_to_features text ratio).seizure := by
  simp only [parse_ocr_text_to_features, containsKw]
  by_cases h : subL ['가', '압', '류'] (text.data.filter (fun c => c != ' ')) = true
  · have h2 : subL ['압', '류'] (text.data.filter (fun c => c != ' ')) = true :=
      subL_cons_weaken '가' _ _ h
    simp [h, h2]
  · simp [h]

/-- C8: during accumulation, a single record that fails to parse is
skipped while every other record of the batch is still accumulated; a
malformed record is never fatal to the whole query. -/
theorem malformed_record_skipped (xs ys : List RawItem) (bad : RawItem)
    (hbad : parse_trade_item bad = none) :
    accumulate_records (xs ++ bad :: ys) =
      accumulate_records xs ++ accumulate_records ys := by
  simp [accumulate_records, List.filterMap_append, List.filterMap_cons, hbad]

/-- Witness for C8 at a concrete batch: the middle item lacks its `offiNm`
field, the surrounding records still accumulate. -/
theorem malformed_record_skipped_witness :
    parse_trade_item ⟨none, some "84", some "2024", some "3", some "5", some "10,000"⟩ = none
  ∧ accumulate_records
      ([⟨some "가람", some "84", some "2024", some "3", some "5", some "10,000"⟩] ++
        ⟨none, some "84", some "2024", some "3", some "5", some "10,000"⟩ ::
          [⟨some "나래", some "59", some "2024", some "7", some "21", some "9,000"⟩]) =
    accumulate_records [⟨some "가람", some "84", some "2024", some "3", some "5", some "10,000"⟩] ++
      accumulate_records [⟨some "나래", some "59", some "2024", some "7", some "21", some "9,000"⟩] :=
  ⟨rfl, malformed_record_skipped _ _ _ rfl⟩

/-- C3 (code bug): with no accumulated record at all, `pd.DataFrame([])`
has no 단지명 column, so `df["단지명"]` raises an uncaught `KeyError`
instead of returning `None`. -/
theorem get_latest_trade_empty_accumulation_raises :
    get_latest_officetel_trade [] "가람" 84 = Except.error "KeyError: 단지명" := rfl

/-- C7: the risk level is a total, non-overlapping step function of the
score: each of the five labels is returned exactly on its band. -/
theorem interpret_risk_score_bands (s : ℚ) :
    ((interpret_risk_score s).1 = "매우 높음" ↔ 80 ≤ s)
  ∧ ((interpret_risk_score s).1 = "높음" ↔ 60 ≤ s ∧ s < 80)
  ∧ ((interpret_risk_score s).1 = "보통" ↔ 40 ≤ s ∧ s < 60)
  ∧ ((interpret_risk_score s).1 = "낮음" ↔ 20 ≤ s ∧ s < 40)
  ∧ ((interpret_risk_score s).1 = "매우 낮음" ↔ s < 20) := by
  unfold interpret_risk_score
  split_ifs with h1 h2 h3 h4 <;>
    refine ⟨?_, ?_, ?_, ?_, ?_⟩ <;>
    constructor <;>
    intro h <;>
    first
      | rfl
      | linarith
      | exact absurd h (by decide)
      | exact ⟨by linarith, by linarith⟩

/-- C2 (code bug): on text carrying the lien label with the amounts
5,000,000,000 and 3,000,000,000, the capture group `(\d+,\d+|\d+)` stops
at the second comma, so only 5,000 and 3,000 are parsed and the feature is
5000 / 100,000,000 = 1/20000 — not the claimed 50.0.  The no-occurrence
half of the claim does hold: lien-free text yields 0. -/
theorem mortgage_normalization_at_example :
    (parse_ocr_text_to_features
        "근저당권설정금5,000,000,000 근저당권설정금3,000,000,000" 0).mortgageNorm
      = 1 / 20000
  ∧ (parse_ocr_text_to_features
        "근저당권설정금5,000,000,000 근저당권설정금3,000,000,000" 0).mortgageNorm ≠ 50
  ∧ (parse_ocr_text_to_features "등기부에근저당없음" 0).mortgageNorm = 0 := by
  have h : (findallMortgage
      ("근저당권설정금5,000,000,000 근저당권설정금3,000,000,000".toList.filter
        (fun c => c != ' '))).map parseIntCommas = [5000, 3000] := by decide
  have h0 : (findallMortgage
      ("등기부에근저당없음".toList.filter (fun c => c != ' '))).map parseIntCommas = [] := by decide
  refine ⟨?_, ?_, ?_⟩ <;> simp only [parse_ocr_text_to_features, normalize_mortgage]
  · rw [h]
    simp only [List.foldl]
    norm_num
  · rw [h]
    simp only [List.foldl]
    norm_num
  · rw [h0]

/-- C6: administrative code resolution returns absent when the address has
fewer than 3 whitespace-separated components or when no table row matches
the triple by exact string equality; otherwise it returns exactly the
first 5 characters of the first matching row's code. -/
theorem get_lawd_cd_exact_match (address : String) (table : List LawdRow) :
    ((pySplit address).length < 3 → get_lawd_cd address table = none)
  ∧ (∀ p0 p1 p2 rest, pySplit address = p0 :: p1 :: p2 :: rest →
      ((∀ r ∈ table, ¬(r.sidoNm = p0 ∧ r.sigunguNm = p1 ∧ r.eupmyeondongNm = p2)) →
          get_lawd_cd address table = none)
    ∧ (∀ r, table.find?
          (fun r => r.sidoNm == p0 && r.sigunguNm == p1 && r.eupmyeondongNm == p2) = some r →
          get_lawd_cd address table = some (r.lawdCode.take 5))) := by
  constructor
  · intro hlen
    simp only [get_lawd_cd]
    rw [if_pos hlen]
  · intro p0 p1 p2 rest hsplit
    constructor
    · intro hnone
      simp only [get_lawd_cd, hsplit]
      have hfil : table.filter
          (fun r => r.sidoNm == p0 && r.sigunguNm == p1 && r.eupmyeondongNm == p2) = [] := by
        rw [List.filter_eq_nil_iff]
        intro r hr
        have := hnone r hr
        simp only [Bool.and_eq_true, beq_iff_eq]
        tauto
      simp [hfil]
    · intro r hfind
      simp only [get_lawd_cd, hsplit]
      rw [find?_eq_head?_filter] at hfind
      cases hfil : table.filter
          (fun r => r.sidoNm == p0 && r.sigunguNm == p1 && r.eupmyeondongNm == p2) with
      | nil => rw [hfil] at hfind; simp at hfind
      | cons r' rs =>
        rw [hfil] at hfind
        simp only [List.head?_cons, Option.some.injEq] at hfind
        subst hfind
        simp [hfil]

/-- Witness for C6 on a one-row table with an exactly matching triple. -/
theorem get_lawd_cd_exact_match_witness :
    get_lawd_cd "서울특별시 강남구 역삼동" [⟨"서울특별시", "강남구", "역삼동", "1168010100"⟩] =
      some "11680" := by
  have h := (get_lawd_cd_exact_match "서울특별시 강남구 역삼동"
      [⟨"서울특별시", "강남구", "역삼동", "1168010100"⟩]).2
      "서울특별시" "강남구" "역삼동" [] (by decide)
  have h2 := h.2 ⟨"서울특별시", "강남구", "역삼동", "1168010100"⟩ (by decide)
  exact h2.trans (by decide)

theorem dateLe_refl (a : Nat × Nat × Nat) : dateLe a a := by
  simp [dateLe]

theorem dateLe_trans {a b c : Nat × Nat × Nat} (h1 : dateLe a b) (h2 : dateLe b c) :
    dateLe a c := by
  obtain ⟨y1, m1, d1⟩ := a; obtain ⟨y2, m2, d2⟩ := b; obtain ⟨y3, m3, d3⟩ := c
  simp only [dateLe] at h1 h2 ⊢
  omega

theorem dateLe_of_dateLtB {a b : Nat × Nat × Nat} (h : dateLtB a b = true) : dateLe a b := by
  obtain ⟨y1, m1, d1⟩ := a; obtain ⟨y2, m2, d2⟩ := b
  simp only [dateLtB, Bool.or_eq_true, Bool.and_eq_true, decide_eq_true_eq, beq_iff_eq] at h
  simp only [dateLe]
  omega

theorem dateLe_of_not_dateLtB {a b : Nat × Nat × Nat} (h : dateLtB a b = false) : dateLe b a := by
  obtain ⟨y1, m1, d1⟩ := a; obtain ⟨y2, m2, d2⟩ := b
  simp only [dateLtB, Bool.or_eq_false_iff, Bool.and_eq_false_iff,
    decide_eq_false_iff_not, beq_eq_false_iff_ne, ne_eq] at h
  simp only [dateLe]
  omega

theorem goodCand_refl (area : ℚ) (r : TradeRecord) : goodCand area r r :=
  ⟨le_refl _, fun _ => dateLe_refl _⟩

theorem goodCand_trans {area : ℚ} {r s t : TradeRecord}
    (h1 : goodCand area r s) (h2 : goodCand area s t) : goodCand area r t := by
  refine ⟨h1.1.trans h2.1, fun heq => ?_⟩
  have hse : areaDiff area s = areaDiff area r := le_antisymm (heq ▸ h2.1) h1.1
  have hte : areaDiff area t = areaDiff area s := hse.symm ▸ heq
  exact dateLe_trans (h2.2 hte) (h1.2 hse)

theorem goodCand_of_betterB {area : ℚ} {a r : TradeRecord}
    (h : betterB area a r = true) : goodCand area r a := by
  simp only [betterB, Bool.or_eq_true, Bool.and_eq_true, decide_eq_true_eq] at h
  cases h with
  | inl h => exact ⟨le_of_lt h, fun heq => absurd heq (by linarith)⟩
  | inr h => exact ⟨le_of_eq h.1, fun _ => dateLe_of_dateLtB h.2⟩

theorem goodCand_of_not_betterB {area : ℚ} {a r : TradeRecord}
    (h : betterB area a r = false) : goodCand area a r := by
  simp only [betterB, Bool.or_eq_false_iff, Bool.and_eq_false_iff,
    decide_eq_false_iff_not, not_lt] at h
  refine ⟨h.1, fun heq => ?_⟩
  cases h.2 with
  | inl h2 => exact absurd heq h2
  | inr h2 => exact dateLe_of_not_dateLtB h2

theorem selectLatest_mem (area : ℚ) (a : TradeRecord) (l : List TradeRecord) :
    selectLatest area a l ∈ a :: l := by
  induction l generalizing a with
  | nil => simp [selectLatest]
  | cons x xs ih =>
    have : selectLatest area a (x :: xs) = selectLatest area (if betterB area a x then x else a) xs := rfl
    rw [this]
    have h := ih (if betterB area a x then x else a)
    rcases List.mem_cons.mp h with h | h
    · rw [h]
      by_cases hb : betterB area a x <;> simp [hb]
    · simp [h]

theorem selectLatest_good (area : ℚ) (a : TradeRecord) (l : List TradeRecord) :
    ∀ s ∈ a :: l, goodCand area (selectLatest area a l) s := by
  induction l generalizing a with
  | nil => intro s hs; rw [List.mem_singleton.mp hs]; exact goodCand_refl area a
  | cons x xs ih =>
    intro s hs
    have hsel : selectLatest area a (x :: xs) = selectLatest area (if betterB area a x then x else a) xs := rfl
    rw [hsel]
    by_cases hb : betterB area a x = true
    · rw [if_pos hb] at hsel ⊢
      have hxa : goodCand area x a := goodCand_of_betterB hb
      have hhead : goodCand area (selectLatest area x xs) x := ih x x (List.mem_cons_self x xs)
      rcases List.mem_cons.mp hs with h | h
      · rw [h]; exact goodCand_trans hhead hxa
      · exact ih x s h
    · have hb' : betterB area a x = false := by simpa using hb
      rw [if_neg hb] at hsel ⊢
      have hax : goodCand area a x := goodCand_of_not_betterB hb'
      have hhead : goodCand area (selectLatest area a xs) a := ih a a (List.mem_cons_self a xs)
      rcases List.mem_cons.mp hs with h | h
      · rw [h]; exact hhead
      · rcases List.mem_cons.mp h with h | h
        · rw [h]; exact goodCand_trans hhead hax
        · exact ih a s (List.mem_cons_of_mem a h)

/-- C4: whenever at least one accumulated record has the building name as
a substring of its 단지명 and a parseable 계약일, the query returns a
record; the returned record is such a candidate, has the minimum absolute
area difference among all of them, and among candidates tied on area
difference it is at least as recent as every one (`goodCand`). -/
theorem get_latest_trade_best_match (result : List TradeRecord)
    (building_name : String) (area : ℚ) (c : TradeRecord) (hc : c ∈ result)
    (hsub : subS building_name c.complexNm = true)
    (hdate : (parseDate c.contractDate).isSome = true) :
    ∃ r, get_latest_officetel_trade result building_name area = Except.ok (some r)
      ∧ r ∈ result ∧ subS building_name r.complexNm = true
      ∧ (parseDate r.contractDate).isSome = true
      ∧ ∀ s ∈ result, subS building_name s.complexNm = true →
          (parseDate s.contractDate).isSome = true → goodCand area r s := by
  have hne : result.isEmpty = false := by
    cases result with
    | nil => simp at hc
    | cons _ _ => rfl
  have hmemdated : ∀ s : TradeRecord,
      s ∈ (result.filter (fun r => subS building_name r.complexNm)).filter
            (fun r => (parseDate r.contractDate).isSome) ↔
        (s ∈ result ∧ subS building_name s.complexNm = true ∧
          (parseDate s.contractDate).isSome = true) := by
    intro s
    constructor
    · intro h
      have h1 := List.mem_filter.mp h
      have h2 := List.mem_filter.mp h1.1
      exact ⟨h2.1, h2.2, h1.2⟩
    · intro h
      exact List.mem_filter.mpr ⟨List.mem_filter.mpr ⟨h.1, h.2.1⟩, h.2.2⟩
  have hcd : c ∈ (result.filter (fun r => subS building_name r.complexNm)).filter
      (fun r => (parseDate r.contractDate).isSome) := (hmemdated c).mpr ⟨hc, hsub, hdate⟩
  cases hd : (result.filter (fun r => subS building_name r.complexNm)).filter
      (fun r => (parseDate r.contractDate).isSome) with
  | nil => rw [hd] at hcd; simp at hcd
  | cons r0 rest =>
    refine ⟨selectLatest area r0 rest, ?_, ?_, ?_, ?_, ?_⟩
    · simp only [get_latest_officetel_trade, hne, Bool.false_eq_true, if_false, hd]
    · have := selectLatest_mem area r0 rest
      rw [← hd] at this
      exact ((hmemdated _).mp this).1
    · have := selectLatest_mem area r0 rest
      rw [← hd] at this
      exact ((hmemdated _).mp this).2.1
    · have := selectLatest_mem area r0 rest
      rw [← hd] at this
      exact ((hmemdated _).mp this).2.2
    · intro s hsmem hssub hsdate
      have hsd : s ∈ r0 :: rest := by
        rw [← hd]; exact (hmemdated s).mpr ⟨hsmem, hssub, hsdate⟩
      exact selectLatest_good area r0 rest s hsd

/-- Witness for C4 on a concrete two-record universe: both records match
the building name, the second is closer in area. -/
theorem get_latest_trade_best_match_witness :
    ∃ r, get_latest_officetel_trade
        [⟨"가람오피스텔", 80, "2024-3-5", "10,000"⟩, ⟨"가람오피스텔", 84, "2024-5-9", "12,000"⟩]
        "가람" 84 = Except.ok (some r)
      ∧ r ∈ [⟨"가람오피스텔", 80, "2024-3-5", "10,000"⟩, ⟨"가람오피스텔", 84, "2024-5-9", "12,000"⟩]
      ∧ subS "가람" r.complexNm = true
      ∧ (parseDate r.contractDate).isSome = true
      ∧ ∀ s ∈ [(⟨"가람오피스텔", 80, "2024-3-5", "10,000"⟩ : TradeRecord),
               ⟨"가람오피스텔", 84, "2024-5-9", "12,000"⟩],
          subS "가람" s.complexNm = true →
          (parseDate s.contractDate).isSome = true → goodCand 84 r s :=
  get_latest_trade_best_match _ "가람" 84 ⟨"가람오피스텔", 80, "2024-3-5", "10,000"⟩
    (by simp) (by decide) (by decide)

theorem splitWs_ws_cons (c : Char) (l : List Char) (h : c.isWhitespace = true) :
    splitWs (c :: l) = splitWs l := by
  cases l <;> simp [splitWs, h]

theorem splitWs_ne_nil (l : List Char) (d : Char) (hd : d.isWhitespace = false) :
    splitWs (d :: l) ≠ [] := by
  induction l generalizing d with
  | nil => simp [splitWs, hd]
  | cons e es ih =>
    by_cases he : e.isWhitespace
    · simp [splitWs, hd, he]
    · have hef : e.isWhitespace = false := by simpa using he
      simp only [splitWs, hd, Bool.false_eq_true, if_false, hef]
      cases h : splitWs (e :: es) with
      | nil => exact absurd h (ih e hef)
      | cons t ts => simp

theorem splitWs_sound (l : List Char) :
    ∀ t ∈ splitWs l, t ≠ [] ∧ ∀ c ∈ t, c.isWhitespace = false := by
  induction l using splitWs.induct with
  | case1 => simp [splitWs]
  | case2 c hc =>
    simp [splitWs, hc]
  | case3 c hc =>
    have hf : c.isWhitespace = false := by simpa using hc
    intro t ht
    simp only [splitWs, hf, Bool.false_eq_true, if_false, List.mem_singleton] at ht
    subst ht
    exact ⟨by simp, fun x hx => by rw [List.mem_singleton.mp hx]; exact hf⟩
  | case4 c d cs hc ih =>
    intro t ht
    rw [splitWs_ws_cons c (d :: cs) hc] at ht
    exact ih t ht
  | case5 c d cs hc hd ih =>
    intro t ht
    have hcf : c.isWhitespace = false := by simpa using hc
    simp only [splitWs, hcf, Bool.false_eq_true, if_false, hd, if_true, List.mem_cons] at ht
    rcases ht with ht | ht
    · subst ht
      exact ⟨by simp, fun x hx => by rw [List.mem_singleton.mp hx]; exact hcf⟩
    · exact ih t ht
  | case6 c d cs hc hd hsp ih =>
    exact absurd hsp (splitWs_ne_nil cs d (by simpa using hd))
  | case7 c d cs hc hd t0 ts hsp ih =>
    intro t ht
    have hcf : c.isWhitespace = false := by simpa using hc
    have hdf : d.isWhitespace = false := by simpa using hd
    simp only [splitWs, hcf, Bool.false_eq_true, if_false, hdf, hsp, List.mem_cons] at ht
    rcases ht with ht | ht
    · subst ht
      have h0 := ih t0 (by rw [hsp]; exact List.mem_cons_self t0 ts)
      refine ⟨by simp, ?_⟩
      intro x hx
      rcases List.mem_cons.mp hx with hx | hx
      · subst hx; exact hcf
      · exact h0.2 x hx
    · exact ih t (by rw [hsp]; exact List.mem_cons_of_mem t0 ht)

theorem splitWs_all_ws (l : List Char) (h : ∀ c ∈ l, c.isWhitespace = true) :
    splitWs l = [] := by
  induction l with
  | nil => rfl
  | cons c cs ih =>
    rw [splitWs_ws_cons c cs (h c (List.mem_cons_self c cs))]
    exact ih (fun x hx => h x (List.mem_cons_of_mem c hx))

theorem splitWs_tok (a : List Char) (ha : a ≠ [])
    (hws : ∀ c ∈ a, c.isWhitespace = false) (l : List Char) :
    splitWs (a ++ ' ' :: l) = a :: splitWs l := by
  induction a with
  | nil => exact absurd rfl ha
  | cons x a' ih =>
    have hxf : x.isWhitespace = false := hws x (List.mem_cons_self x a')
    cases a' with
    | nil =>
      show splitWs (x :: ' ' :: l) = [x] :: splitWs l
      simp only [splitWs, hxf, Bool.false_eq_true, if_false]
      rw [if_pos (by decide)]
      rw [splitWs_ws_cons ' ' l (by decide)]
    | cons y a'' =>
      have hyf : y.isWhitespace = false :=
        hws y (List.mem_cons_of_mem x (List.mem_cons_self y a''))
      have hrec : splitWs ((y :: a'') ++ ' ' :: l) = (y :: a'') :: splitWs l :=
        ih (by simp) (fun c hc => hws c (List.mem_cons_of_mem x hc))
      show splitWs (x :: y :: (a'' ++ ' ' :: l)) = (x :: y :: a'') :: splitWs l
      simp only [splitWs, hxf, Bool.false_eq_true, if_false, hyf]
      rw [show y :: (a'' ++ ' ' :: l) = (y :: a'') ++ ' ' :: l from rfl, hrec]

theorem splitWs_single (a : List Char) (ha : a ≠ [])
    (hws : ∀ c ∈ a, c.isWhitespace = false) :
    splitWs a = [a] := by
  induction a with
  | nil => exact absurd rfl ha
  | cons x a' ih =>
    have hxf : x.isWhitespace = false := hws x (List.mem_cons_self x a')
    cases a' with
    | nil => simp [splitWs, hxf]
    | cons y a'' =>
      have hyf : y.isWhitespace = false :=
        hws y (List.mem_cons_of_mem x (List.mem_cons_self y a''))
      have hrec : splitWs (y :: a'') = [y :: a''] :=
        ih (by simp) (fun c hc => hws c (List.mem_cons_of_mem x hc))
      simp only [splitWs, hxf, Bool.false_eq_true, if_false, hyf, hrec]

theorem splitWs_append_ws (W : List Char) (hW : ∀ c ∈ W, c.isWhitespace = true)
    (A : List Char) : splitWs (A ++ W) = splitWs A := by
  induction A using splitWs.induct with
  | case1 => simpa using splitWs_all_ws W hW
  | case2 c hc =>
    show splitWs (c :: W) = splitWs [c]
    rw [splitWs_ws_cons c W hc, splitWs_all_ws W hW]
    simp [splitWs, hc]
  | case3 c hc =>
    have hcf : c.isWhitespace = false := by simpa using hc
    show splitWs (c :: W) = splitWs [c]
    cases W with
    | nil => rfl
    | cons w W' =>
      have hwt : w.isWhitespace = true := hW w (List.mem_cons_self w W')
      simp only [splitWs, hcf, Bool.false_eq_true, if_false, hwt, if_true]
      rw [splitWs_ws_cons w W' hwt,
        splitWs_all_ws W' (fun x hx => hW x (List.mem_cons_of_mem w hx))]
  | case4 c d cs hc ih =>
    show splitWs (c :: (d :: cs ++ W)) = splitWs (c :: d :: cs)
    rw [splitWs_ws_cons c (d :: cs ++ W) hc, splitWs_ws_cons c (d :: cs) hc]
    exact ih
  | case5 c d cs hc hd ih =>
    have hcf : c.isWhitespace = false := by simpa using hc
    show splitWs (c :: d :: (cs ++ W)) = splitWs (c :: d :: cs)
    simp only [splitWs, hcf, Bool.false_eq_true, if_false, hd, if_true]
    rw [show d :: (cs ++ W) = (d :: cs) ++ W from rfl, ih]
  | case6 c d cs hc hd hsp ih =>
    exact absurd hsp (splitWs_ne_nil cs d (by simpa using hd))
  | case7 c d cs hc hd t0 ts hsp ih =>
    have hcf : c.isWhitespace = false := by simpa using hc
    have hdf : d.isWhitespace = false := by simpa using hd
    show splitWs (c :: d :: (cs ++ W)) = splitWs (c :: d :: cs)
    simp only [splitWs, hcf, Bool.false_eq_true, if_false, hdf]
    rw [show d :: (cs ++ W) = (d :: cs) ++ W from rfl, ih, hsp]

theorem splitWs_dropWhile_ws (l : List Char) :
    splitWs (l.dropWhile Char.isWhitespace) = splitWs l := by
  induction l with
  | nil => rfl
  | cons c cs ih =>
    by_cases h : c.isWhitespace
    · rw [List.dropWhile_cons_of_pos h, ih, splitWs_ws_cons c cs h]
    · rw [List.dropWhile_cons_of_neg h]

theorem splitWs_stripL (l : List Char) : splitWs (stripL l) = splitWs l := by
  have hdecomp : l.dropWhile Char.isWhitespace =
      stripL l ++ ((l.dropWhile Char.isWhitespace).reverse.takeWhile Char.isWhitespace).reverse := by
    unfold stripL
    rw [← List.reverse_append, List.takeWhile_append_dropWhile, List.reverse_reverse]
  have hW : ∀ c ∈ ((l.dropWhile Char.isWhitespace).reverse.takeWhile Char.isWhitespace).reverse,
      c.isWhitespace = true := by
    intro c hc
    exact List.mem_takeWhile_imp (List.mem_reverse.mp hc)
  calc splitWs (stripL l)
      = splitWs (stripL l ++ ((l.dropWhile Char.isWhitespace).reverse.takeWhile Char.isWhitespace).reverse) :=
        (splitWs_append_ws _ hW _).symm
    _ = splitWs (l.dropWhile Char.isWhitespace) := by rw [← hdecomp]
    _ = splitWs l := splitWs_dropWhile_ws l

theorem scanIdx_le (l : List (List Char)) :
    ∀ (i : Nat) (acc : Int), acc ≤ (i : Int) - 1 →
      scanIdx l i acc ≤ (i : Int) + l.length - 1 := by
  induction l with
  | nil =>
    intro i acc h
    simpa [scanIdx] using by omega
  | cons w ws ih =>
    intro i acc h
    simp only [scanIdx]
    by_cases hlot : lotPat w
    · rw [if_pos hlot]
      simp only [List.length_cons]
      push_cast
      omega
    · rw [if_neg hlot]
      have hacc : (if w.contains '동' then (i : Int) else acc) ≤ ((i + 1 : Nat) : Int) - 1 := by
        split <;> push_cast <;> omega
      have := ih (i + 1) _ hacc
      simp only [List.length_cons]
      push_cast at this ⊢
      omega

theorem scanIdx_eq_spec_aux (l : List (List Char)) :
    ∀ (i : Nat) (acc : Int), scanIdx l i acc =
      match firstLotIdx l with
      | some j => ((i + j : Nat) : Int) - 1
      | none => lastDongAux l i acc := by
  induction l with
  | nil => intro i acc; simp [scanIdx, firstLotIdx, lastDongAux]
  | cons w ws ih =>
    intro i acc
    simp only [scanIdx, firstLotIdx]
    by_cases hlot : lotPat w
    · rw [if_pos hlot, if_pos hlot]
      simp
    · rw [if_neg hlot, if_neg hlot]
      rw [ih (i + 1) _]
      cases hfi : firstLotIdx ws with
      | some j =>
        simp only [hfi, Option.map_some]
        congr 1
        push_cast
        omega
      | none =>
        simp only [hfi, Option.map_none]
        rfl

theorem scanIdx_eq_spec (words : List (List Char)) :
    scanIdx words 0 (-1) = boundarySpec words := by
  rw [scanIdx_eq_spec_aux words 0 (-1), boundarySpec]
  cases firstLotIdx words <;> simp

theorem mem_joinL {c : Char} {ls : List (List Char)} (h : c ∈ joinL ls) :
    ∃ l ∈ ls, c ∈ l := by
  induction ls with
  | nil => simp [joinL] at h
  | cons x xs ih =>
    simp only [joinL, List.mem_append] at h
    rcases h with h | h
    · exact ⟨x, List.mem_cons_self x xs, h⟩
    · obtain ⟨l, hl, hc⟩ := ih h
      exact ⟨l, List.mem_cons_of_mem x hl, hc⟩

theorem joinL_cons_ne_nil (x : List Char) (ls : List (List Char)) (hx : x ≠ []) :
    joinL (x :: ls) ≠ [] := by
  simp only [joinL, ne_eq, List.append_eq_nil]
  tauto

theorem parseMarkerLineL_addr (lineL a bn : List Char)
    (h : parseMarkerLineL lineL = some (a, bn)) :
    ∃ t1 t2 t3, splitWs a = [t1, t2, t3] ∧ t1 ≠ [] ∧ t2 ≠ [] ∧ t3 ≠ [] := by
  simp only [parseMarkerLineL] at h
  by_cases hlt : scanIdx (splitWs lineL) 0 (-1) < 3
  · rw [if_pos hlt] at h; exact absurd h (by simp)
  · rw [if_neg hlt] at h
    split at h
    case neg.h_2 => exact absurd h (by simp)
    case neg.h_1 w0 w1 w2 rest heq =>
      rw [heq] at h hlt
      simp only [Option.some.injEq, Prod.mk.injEq] at h
      obtain ⟨ha, hb⟩ := h
      have hbound := scanIdx_le (w0 :: w1 :: w2 :: rest) 0 (-1) (by norm_num)
      rw [← heq] at hbound hlt ha
      rw [heq] at hbound hlt ha
      set idx := scanIdx (w0 :: w1 :: w2 :: rest) 0 (-1) with hidx
      have hge : (3 : Int) ≤ idx := by omega
      have hlen : 4 ≤ (w0 :: w1 :: w2 :: rest).length := by
        simp only [List.length_cons] at hbound ⊢
        omega
      have hn3 : 3 ≤ idx.toNat := by omega
      have hsound := splitWs_sound lineL
      rw [heq] at hsound
      have h0 := hsound w0 (by simp)
      have h1 := hsound w1 (by simp)
      have h2 := hsound w2 (by simp)
      have hslice : ∀ t ∈ ((w0 :: w1 :: w2 :: rest).drop 3).take (idx.toNat + 1 - 3),
          t ≠ [] ∧ ∀ c ∈ t, c.isWhitespace = false := by
        intro t ht
        exact hsound t (List.mem_of_mem_take ht |> List.mem_of_mem_drop)
      have hdong_ws : ∀ c ∈ dongPart (w0 :: w1 :: w2 :: rest) idx.toNat,
          c.isWhitespace = false := by
        intro c hc
        obtain ⟨t, htm, hct⟩ := mem_joinL hc
        exact (hslice t htm).2 c hct
      have hdong_ne : dongPart (w0 :: w1 :: w2 :: rest) idx.toNat ≠ [] := by
        have hdlen : 1 ≤ ((w0 :: w1 :: w2 :: rest).drop 3).length := by
          rw [List.length_drop]
          omega
        have hdne : (w0 :: w1 :: w2 :: rest).drop 3 ≠ [] := by
          intro hnil
          rw [hnil] at hdlen
          simp at hdlen
        obtain ⟨y, ys, hys⟩ := List.exists_cons_of_ne_nil hdne
        obtain ⟨m, hm⟩ : ∃ m, idx.toNat + 1 - 3 = m + 1 := ⟨idx.toNat - 3, by omega⟩
        have hy : y ≠ [] := by
          refine (hsound y ?_).1
          exact List.mem_of_mem_drop (hys ▸ List.mem_cons_self y ys)
        unfold dongPart
        rw [hys, hm, List.take_cons]
        · exact joinL_cons_ne_nil y _ hy
        · omega
      refine ⟨w0, w1 ++ w2, dongPart (w0 :: w1 :: w2 :: rest) idx.toNat,
        ?_, h0.1, ?_, hdong_ne⟩
      · rw [← ha, splitWs_stripL]
        rw [splitWs_tok w0 h0.1 h0.2]
        rw [splitWs_tok (w1 ++ w2) (by simp [h1.1]) (by
          intro c hc
          rcases List.mem_append.mp hc with hc | hc
          · exact h1.2 c hc
          · exact h2.2 c hc)]
        rw [splitWs_single _ hdong_ne hdong_ws]
      · simp [h1.1]

theorem mkStr_ne_empty (t : List Char) (h : t ≠ []) : String.mk t ≠ "" :=
  fun hc => h (congrArg String.data hc)

theorem extract_shape (text : String) :
    extract_address_and_building_from_pdf text = (none, none) ∨
    ∃ a b : String, extract_address_and_building_from_pdf text = (some a, some b) := by
  unfold extract_address_and_building_from_pdf
  cases hf : findMarker text.toList with
  | none => exact Or.inl rfl
  | some cap =>
    dsimp only
    cases hp : parseMarkerLineL (stripL cap) with
    | none => exact Or.inl rfl
    | some ab => exact Or.inr ⟨String.mk ab.1, String.mk ab.2, rfl⟩

theorem extract_some_split (text a b : String)
    (h : extract_address_and_building_from_pdf text = (some a, some b)) :
    (pySplit a).length = 3 ∧ ∀ p ∈ pySplit a, p ≠ "" := by
  unfold extract_address_and_building_from_pdf at h
  cases hf : findMarker text.toList with
  | none => rw [hf] at h; exact absurd h (by simp)
  | some cap =>
    rw [hf] at h
    dsimp only at h
    cases hp : parseMarkerLineL (stripL cap) with
    | none => rw [hp] at h; exact absurd h (by simp)
    | some ab =>
      obtain ⟨aL, bL⟩ := ab
      rw [hp] at h
      dsimp only at h
      simp only [Prod.mk.injEq, Option.some.injEq] at h
      obtain ⟨haa, hbb⟩ := h
      obtain ⟨t1, t2, t3, hsplit, h1, h2, h3⟩ := parseMarkerLineL_addr _ _ _ hp
      subst haa
      constructor
      · show ((splitWs (String.mk aL).toList).map String.mk).length = 3
        rw [show (String.mk aL).toList = aL from rfl, hsplit]
        rfl
      · intro p hpm
        have : pySplit (String.mk aL) = [String.mk t1, String.mk t2, String.mk t3] := by
          show (splitWs (String.mk aL).toList).map String.mk = _
          rw [show (String.mk aL).toList = aL from rfl, hsplit]
          rfl
        rw [this] at hpm
        simp only [List.mem_cons, List.not_mem_nil, or_false] at hpm
        rcases hpm with hpm | hpm | hpm <;> subst hpm
        · exact mkStr_ne_empty t1 h1
        · exact mkStr_ne_empty t2 h2
        · exact mkStr_ne_empty t3 h3

/-- C1 (amended): the parse returns both components absent or both
present, never exactly one; a present address is a non-empty 3-part
string, but the present building name may be the empty string (the
original claim's "non-empty building name" fails, see the
counterexample). -/
theorem extract_pair_both_or_neither (text : String) :
    extract_address_and_building_from_pdf text = (none, none) ∨
    ∃ a b : String, extract_address_and_building_from_pdf text = (some a, some b) ∧
      (pySplit a).length = 3 ∧ a ≠ "" := by
  rcases extract_shape text with h | ⟨a, b, h⟩
  · exact Or.inl h
  · right
    obtain ⟨hlen, _⟩ := extract_some_split text a b h
    refine ⟨a, b, h, hlen, ?_⟩
    intro hempty
    rw [hempty] at hlen
    simp [pySplit, splitWs] at hlen

/-- Counterexample to C1 as stated: on this marker line the boundary lands
on the last token, so the building-word slice is empty and the parser
returns a present address paired with the empty building name. -/
theorem extract_present_address_empty_building :
    (extract_address_and_building_from_pdf
        "[집합건물] 서울특별시 강남구 역삼 동 123-4").1 = some "서울특별시 강남구역삼 동"
  ∧ (extract_address_and_building_from_pdf
        "[집합건물] 서울특별시 강남구 역삼 동 123-4").2 = some "" :=
  ⟨rfl, rfl⟩

/-- C10: every address returned by a successful parse splits into exactly
three non-empty whitespace-separated components, so the component-count
check of `get_lawd_cd` (fewer than 3 parts) can never fire on it. -/
theorem parsed_address_three_parts (text a b : String)
    (h : extract_address_and_building_from_pdf text = (some a, some b)) :
    (pySplit a).length = 3 ∧ (∀ p ∈ pySplit a, p ≠ "") ∧
      ¬((pySplit a).length < 3) := by
  obtain ⟨hlen, hne⟩ := extract_some_split text a b h
  exact ⟨hlen, hne, by omega⟩

/-- Witness for C10 at a concrete successfully parsed document. -/
theorem parsed_address_three_parts_witness :
    (pySplit "서울특별시 강남구역삼 동").length = 3
  ∧ (∀ p ∈ pySplit "서울특별시 강남구역삼 동", p ≠ "")
  ∧ ¬((pySplit "서울특별시 강남구역삼 동").length < 3) :=
  parsed_address_three_parts "[집합건물] 서울특별시 강남구 역삼 동 123-4 타워팰리스"
    "서울특별시 강남구역삼 동" "타워팰리스" rfl

/-- C5: the scanned boundary index equals its specification — the index
before the first lot-number-pattern token when one exists, otherwise the
index of the last token containing 동 — and the marker-line parse fails
exactly when that resolved boundary is below 3. -/
theorem address_boundary_spec (line : String) :
    scanIdx (splitWs line.toList) 0 (-1) = boundarySpec (splitWs line.toList)
  ∧ (parseMarkerLineL line.toList = none ↔
      boundarySpec (splitWs line.toList) < 3) := by
  refine ⟨scanIdx_eq_spec _, ?_⟩
  constructor
  · intro h
    by_contra hge
    rw [← scanIdx_eq_spec] at hge
    have hge' : ¬ scanIdx (splitWs line.toList) 0 (-1) < 3 := hge
    simp only [parseMarkerLineL] at h
    rw [if_neg hge'] at h
    have hbound := scanIdx_le (splitWs line.toList) 0 (-1) (by norm_num)
    have hlen : 4 ≤ (splitWs line.toList).length := by omega
    obtain ⟨w0, t0, h0⟩ := List.exists_cons_of_ne_nil
      (show splitWs line.toList ≠ [] by
        intro hnil; rw [hnil] at hlen; simp at hlen)
    rw [h0] at hlen
    obtain ⟨w1, t1, h1⟩ := List.exists_cons_of_ne_nil
      (show t0 ≠ [] by
        intro hnil; rw [hnil] at hlen; simp at hlen)
    rw [h1] at hlen
    obtain ⟨w2, t2, h2⟩ := List.exists_cons_of_ne_nil
      (show t1 ≠ [] by
        intro hnil; rw [hnil] at hlen; simp at hlen)
    rw [h0, h1, h2] at h
    exact absurd h (by simp)
  · intro h
    have h' : scanIdx (splitWs line.toList) 0 (-1) < 3 := by
      rw [scanIdx_eq_spec]; exact h
    simp only [parseMarkerLineL]
    rw [if_pos h']
